import Mathlib

/-!
Shallow embedding of the resolution and merge engine of
`src/rapids_dependency_file_generator/_rapids_dependency_file_generator.py`.

Python dicts are modelled as association lists (`List (k × v)`) that keep the
insertion order, Python sets as `Finset`, `sorted(...)` on a set of strings as
an insertion sort by Python's lexicographic code-point order (`finsetSorted`),
and functions that `raise ValueError` as functions into `Except GenError`.
-/

set_option autoImplicit false

/-- The `Output` enumeration (`_config.Output`): conda, requirements, pyproject. -/
inductive Output
  | conda
  | requirements
  | pyproject
deriving DecidableEq, Repr

/-- An entry of a `packages` list in the config: either a plain string or a
`PipRequirements` object holding the list of its `pip` member. -/
inductive PkgEntry
  | str (s : String)
  | pip (pkgs : List String)
deriving DecidableEq, Repr

/-- A resolved dependency entry, `str | dict[str, list[str]]`.  The dict is kept
as an insertion-ordered association list, as a Python dict is. -/
inductive Dep
  | str (s : String)
  | dict (buckets : List (String × List String))
deriving DecidableEq, Repr

/-- One element of `SpecificEntry.matrices` (`_config.MatrixEntry`): a matrix of
axis-name/glob-pattern pairs (empty = fallback) and a package list. -/
structure MatrixRule where
  matrix : List (String × String)
  packages : List PkgEntry
deriving DecidableEq, Repr

/-- `_config.SpecificEntry`: output types and an ordered list of matrix rules. -/
structure SpecificEntry where
  output_types : List Output
  matrices : List MatrixRule
deriving DecidableEq, Repr

/-- `_config.CommonEntry`: output types and a package list, applied
unconditionally for matching output types. -/
structure CommonEntry where
  output_types : List Output
  packages : List PkgEntry
deriving DecidableEq, Repr

/-- `_config.Dependencies`: one include's `common` and `specific` rules. -/
structure DependencySet where
  common : List CommonEntry
  specific : List SpecificEntry
deriving DecidableEq, Repr

/-- The fields of `_config.File` used by the resolution engine (lines 409-478):
default output types, ordered include names, and the default matrix.  The
render-only fields (output directories, extras, ...) play no part in the claims
about resolution and are omitted. -/
structure FileCfg where
  output : List Output
  includes : List String
  matrix : List (String × List String)
deriving DecidableEq, Repr

/-- `_config.FileExtras`: a dotted table path and an optional key name, used by
the PYPROJECT branch of `make_dependency_file`. -/
structure FileExtras where
  table : String
  key : Option String
deriving DecidableEq, Repr

/-- The configuration errors (`raise ValueError(...)`) of the engine, each
constructor carrying the data interpolated into the corresponding message. -/
inductive GenError
  /-- "All matrix entries must be unique. Found duplicates in '{include}': ..."
  (lines 446-450); carries the include name and every matrix of the entry. -/
  | duplicateMatrices (includeName : String) (matrices : List (List (String × String)))
  /-- "No matching matrix found in '{include}' for: {matrix_combo}" (line 474). -/
  | noMatchingMatrix (includeName : String) (combo : List (String × String))
  /-- "Pyproject outputs can't have more than one matrix output" (line 418). -/
  | pyprojectMatrix
  /-- "Map inputs like {dep} are not allowed for the 'requirements' file type."
  (line 155); carries the offending bucket map. -/
  | mapInput (buckets : List (String × List String))
  /-- "The 'extras' field must be provided for the 'pyproject' file type." (line 160). -/
  | missingExtras
  /-- "The 'key' field is not allowed ... when 'table' is 'build-system'." (lines 165-167). -/
  | keyNotAllowedBuildSystem
  /-- "The 'key' field is not allowed ... when 'table' is 'project'." (lines 171-173). -/
  | keyNotAllowedProject
  /-- "The 'key' field is required ... when 'table' is not one of 'build-system' or 'project'." (lines 176-179). -/
  | keyRequired
deriving DecidableEq, Repr

instance {ε α : Type} [DecidableEq ε] [DecidableEq α] : DecidableEq (Except ε α) := fun a b =>
  match a, b with
  | Except.error e₁, Except.error e₂ =>
    if h : e₁ = e₂ then isTrue (by rw [h]) else isFalse (by intro hc; cases hc; exact h rfl)
  | Except.error _, Except.ok _ => isFalse (by intro hc; cases hc)
  | Except.ok _, Except.error _ => isFalse (by intro hc; cases hc)
  | Except.ok a₁, Except.ok a₂ =>
    if h : a₁ = a₂ then isTrue (by rw [h]) else isFalse (by intro hc; cases hc; exact h rfl)

/-! ## Glob matching (`fnmatch.fnmatch` on a POSIX platform)

`fnmatch.fnmatch(name, pat)` translates `pat` to a regular expression and
matches `name` in full against it.  We compile the pattern to a token list and
match it directly: `*` matches any sequence, `?` any single character,
`[...]`/`[!...]` a (negated) character class with `a-b` ranges, a `]` directly
after `[` or `[!` is a literal member, and a `[` with no closing `]` is a
literal `[` (standard shell-glob semantics). -/

/-- One member of a character class: a literal character or a range. -/
inductive GlobItem
  | lit (c : Char)
  | range (lo hi : Char)
deriving DecidableEq, Repr

/-- A compiled glob-pattern token. -/
inductive GlobToken
  | lit (c : Char)
  | star
  | anyChar
  | cls (negated : Bool) (items : List GlobItem)
deriving DecidableEq, Repr

/-- Parse the interior of a character class, pairing `a-b` into ranges; a `-`
with no following character is a literal. -/
def classItems : List Char → List GlobItem
  | [] => []
  | a :: '-' :: b :: rest => GlobItem.range a b :: classItems rest
  | a :: rest => GlobItem.lit a :: classItems rest

/-- Split the characters after a `[` into the class description and the rest of
the pattern, following the scan in `fnmatch.translate`: an optional leading `!`
negates, a `]` directly after that is a literal member, the class ends at the
next `]`, and `none` is returned when no closing `]` exists. -/
def classSplit (ps : List Char) : Option (Bool × List Char × List Char) :=
  let negated : Bool := ps.head? = some '!'
  let body := if negated then ps.drop 1 else ps
  let leadingBracket : Bool := body.head? = some ']'
  let searchArea := if leadingBracket then body.drop 1 else body
  match searchArea.findIdx? (fun c => c = ']') with
  | none => none
  | some j =>
    let contentLen := if leadingBracket then j + 1 else j
    some (negated, body.take contentLen, body.drop (contentLen + 1))

/-- Fuel-indexed compilation of a glob pattern to a token list, following the
scan in `fnmatch.translate`; a `[` with no closing `]` is demoted to a literal
character.  Every step consumes at least one character, so any fuel of at least
the pattern length gives the fuel-free semantics. -/
def compileGlobF : Nat → List Char → List GlobToken
  | 0, _ => []
  | _ + 1, [] => []
  | fuel + 1, '*' :: ps => GlobToken.star :: compileGlobF fuel ps
  | fuel + 1, '?' :: ps => GlobToken.anyChar :: compileGlobF fuel ps
  | fuel + 1, '[' :: ps =>
    match classSplit ps with
    | none => GlobToken.lit '[' :: compileGlobF fuel ps
    | some (negated, content, rest) =>
      GlobToken.cls negated (classItems content) :: compileGlobF fuel rest
  | fuel + 1, c :: ps => GlobToken.lit c :: compileGlobF fuel ps

/-- Compile a glob pattern (as a character list) to a token list. -/
def compileGlob (pat : List Char) : List GlobToken :=
  compileGlobF pat.length pat

/-- Does character `c` belong to the character class `items`? -/
def matchClass (items : List GlobItem) (c : Char) : Bool :=
  items.any fun item =>
    match item with
    | GlobItem.lit a => a = c
    | GlobItem.range lo hi => lo ≤ c && c ≤ hi

/-- Fuel-indexed matching of a compiled pattern against a string, anchored at
both ends as `re.match(... + r"\Z")` is: a `star` either matches the empty
sequence or absorbs one character and stays.  Every step shortens the token
list or the string, so any fuel of at least their combined length gives the
fuel-free semantics. -/
def matchTokensF : Nat → List GlobToken → List Char → Bool
  | _, [], [] => true
  | _, [], _ :: _ => false
  | 0, _ :: _, _ => false
  | fuel + 1, GlobToken.star :: ts, s =>
    matchTokensF fuel ts s ||
      (match s with
       | [] => false
       | _ :: s' => matchTokensF fuel (GlobToken.star :: ts) s')
  | _ + 1, GlobToken.anyChar :: _, [] => false
  | fuel + 1, GlobToken.anyChar :: ts, _ :: s' => matchTokensF fuel ts s'
  | _ + 1, GlobToken.lit _ :: _, [] => false
  | fuel + 1, GlobToken.lit c :: ts, c' :: s' => c = c' && matchTokensF fuel ts s'
  | _ + 1, GlobToken.cls _ _ :: _, [] => false
  | fuel + 1, GlobToken.cls negated items :: ts, c :: s' =>
    (matchClass items c != negated) && matchTokensF fuel ts s'

/-- Match a compiled pattern against a string (as a character list). -/
def matchTokens (ts : List GlobToken) (s : List Char) : Bool :=
  matchTokensF (ts.length + s.length) ts s

/-- `fnmatch.fnmatch(name, pat)` (POSIX: `os.path.normcase` is the identity). -/
def fnmatchB (name pat : String) : Bool :=
  matchTokens (compileGlob pat.data) name.data

/-- `should_use_specific_entry(matrix_combo, specific_entry_matrix)` (lines
295-327): every key of the rule matrix must be present in the combo and the
combo's value must glob-match the rule's pattern. -/
def should_use_specific_entry (matrix_combo : List (String × String))
    (specific_entry_matrix : List (String × String)) : Bool :=
  specific_entry_matrix.all fun kv =>
    match matrix_combo.lookup kv.1 with
    | some v => fnmatchB v kv.2
    | none => false

/-! ## Matrix expansion (`grid`, lines 72-93) -/

/-- `itertools.product(*lists)`: all selections of one element per list, in
lexicographic order (the last list varies fastest). -/
def listProd {α : Type} : List (List α) → List (List α)
  | [] => [[]]
  | xs :: rest => xs.flatMap fun x => (listProd rest).map fun t => x :: t

/-- `grid(gridspec)`: `dict(zip(gridspec.keys(), values))` for every `values` in
`itertools.product(*gridspec.values())`. -/
def grid (gridspec : List (String × List String)) : List (List (String × String)) :=
  (listProd (gridspec.map fun kv => kv.2)).map fun values =>
    (gridspec.map fun kv => kv.1).zip values

/-! ## Python's `sorted` on a set of strings

Python compares strings lexicographically by code points; `sorted(a_set)`
returns the ascending list of the set's distinct elements.  We model the
comparison with an executable lexicographic order on the character lists and
sorting as insertion sort lifted to the `Multiset` underlying a `Finset`. -/

/-- Lexicographic comparison of character lists by code points, as Python
compares strings. -/
def lexLe : List Char → List Char → Bool
  | [], _ => true
  | _ :: _, [] => false
  | a :: as, b :: bs => if a < b then true else if b < a then false else lexLe as bs

/-- Python's `<=` on strings. -/
def strLe (a b : String) : Bool :=
  lexLe a.data b.data

/-- `strLe` as a relation, the sorting order of Python's `sorted`. -/
def strLeP (a b : String) : Prop :=
  strLe a b = true

instance : DecidableRel strLeP :=
  fun a b => instDecidableEqBool (strLe a b) true

theorem lexLe_total (l₁ l₂ : List Char) : lexLe l₁ l₂ = true ∨ lexLe l₂ l₁ = true := by
  induction l₁ generalizing l₂ with
  | nil => left; rfl
  | cons a as ih =>
    cases l₂ with
    | nil => right; rfl
    | cons b bs =>
      by_cases hab : a < b
      · left; simp [lexLe, hab]
      · by_cases hba : b < a
        · right; simp [lexLe, hba]
        · have hcomm := ih bs
          simp only [lexLe, if_neg hab, if_neg hba]
          rcases hcomm with h | h
          · left; exact h
          · right; exact h

theorem lexLe_trans {l₁ l₂ l₃ : List Char} (h₁ : lexLe l₁ l₂ = true)
    (h₂ : lexLe l₂ l₃ = true) : lexLe l₁ l₃ = true := by
  induction l₁ generalizing l₂ l₃ with
  | nil => rfl
  | cons a as ih =>
    cases l₂ with
    | nil => exact absurd h₁ (by simp [lexLe])
    | cons b bs =>
      cases l₃ with
      | nil => exact absurd h₂ (by simp [lexLe])
      | cons c cs =>
        simp only [lexLe] at h₁ h₂ ⊢
        by_cases hab : a < b
        · by_cases hbc : b < c
          · simp [lt_trans hab hbc]
          · by_cases hcb : c < b
            · simp only [if_neg hbc, if_pos hcb] at h₂
              exact absurd h₂ (by simp)
            · have : b = c := le_antisymm (not_lt.mp hcb) (not_lt.mp hbc)
              subst this
              simp [hab]
        · by_cases hba : b < a
          · simp only [if_neg hab, if_pos hba] at h₁
            exact absurd h₁ (by simp)
          · have : a = b := le_antisymm (not_lt.mp hba) (not_lt.mp hab)
            subst this
            by_cases hbc : a < c
            · simp [hbc]
            · by_cases hcb : c < a
              · simp only [if_neg hbc, if_pos hcb] at h₂
                exact absurd h₂ (by simp)
              · simp only [if_neg hab, if_neg hba] at h₁
                simp only [if_neg hbc, if_neg hcb] at h₂ ⊢
                exact ih h₁ h₂

theorem lexLe_antisymm {l₁ l₂ : List Char} (h₁ : lexLe l₁ l₂ = true)
    (h₂ : lexLe l₂ l₁ = true) : l₁ = l₂ := by
  induction l₁ generalizing l₂ with
  | nil =>
    cases l₂ with
    | nil => rfl
    | cons b bs => exact absurd h₂ (by simp [lexLe])
  | cons a as ih =>
    cases l₂ with
    | nil => exact absurd h₁ (by simp [lexLe])
    | cons b bs =>
      by_cases hab : a < b
      · simp only [lexLe, if_neg (lt_asymm hab), if_pos hab] at h₂
        exact absurd h₂ (by simp)
      · by_cases hba : b < a
        · simp only [lexLe, if_neg hab, if_pos hba] at h₁
          exact absurd h₁ (by simp)
        · have hev : a = b := le_antisymm (not_lt.mp hba) (not_lt.mp hab)
          subst hev
          simp only [lexLe, if_neg hab, if_neg hba] at h₁ h₂
          rw [ih h₁ h₂]

instance : IsTotal String strLeP :=
  ⟨fun a b => lexLe_total a.data b.data⟩

instance : IsTrans String strLeP :=
  ⟨fun _ _ _ h₁ h₂ => lexLe_trans h₁ h₂⟩

instance : IsAntisymm String strLeP :=
  ⟨fun a b h₁ h₂ => by
    cases a
    cases b
    exact congrArg String.mk (lexLe_antisymm h₁ h₂)⟩

instance : IsRefl String strLeP :=
  ⟨fun a => by
    rcases total_of strLeP a a with h | h <;> exact h⟩

/-- Insertion sort of a string list in Python's string order. -/
def insertionSortLe (l : List String) : List String :=
  l.insertionSort strLeP

theorem insertionSortLe_perm (l : List String) : (insertionSortLe l).Perm l :=
  List.perm_insertionSort strLeP l

theorem insertionSortLe_sorted (l : List String) : List.Sorted strLeP (insertionSortLe l) :=
  List.sorted_insertionSort strLeP l

theorem insertionSortLe_congr {l₁ l₂ : List String} (h : l₁.Perm l₂) :
    insertionSortLe l₁ = insertionSortLe l₂ :=
  List.eq_of_perm_of_sorted
    ((insertionSortLe_perm l₁).trans (h.trans (insertionSortLe_perm l₂).symm))
    (insertionSortLe_sorted l₁) (insertionSortLe_sorted l₂)

/-- Python's `sorted(a_set)`: the ascending list of the distinct elements. -/
def finsetSorted (s : Finset String) : List String :=
  Quotient.liftOn s.1 insertionSortLe fun _ _ h => insertionSortLe_congr h

theorem finsetSorted_sorted (s : Finset String) : List.Sorted strLeP (finsetSorted s) := by
  rcases s with ⟨m, hm⟩
  induction m using Quotient.inductionOn with
  | h l => exact insertionSortLe_sorted l

theorem finsetSorted_perm (s : Finset String) : (↑(finsetSorted s) : Multiset String) = s.1 := by
  rcases s with ⟨m, hm⟩
  induction m using Quotient.inductionOn with
  | h l => exact Quotient.sound (insertionSortLe_perm l)

theorem mem_finsetSorted (s : Finset String) (x : String) :
    x ∈ finsetSorted s ↔ x ∈ s := by
  rw [← Multiset.mem_coe, finsetSorted_perm s]
  exact Iff.rfl

theorem finsetSorted_nodup (s : Finset String) : (finsetSorted s).Nodup := by
  have := s.nodup
  rw [← finsetSorted_perm s] at this
  exact this

theorem finsetSorted_empty_iff (s : Finset String) : finsetSorted s = [] ↔ s = ∅ := by
  constructor
  · intro h
    ext x
    rw [← mem_finsetSorted, h]
    simp
  · intro h
    subst h
    rfl

/-! ## Deduplication (`dedupe`, lines 43-69) -/

/-- The body of the `for dep in dependencies:` loop of `dedupe` (lines 60-64):
a plain string joins `string_deps`, a `PipRequirements` unions its members into
`pip_deps`. -/
def dedupeStep (acc : Finset String × Finset String) (dep : PkgEntry) :
    Finset String × Finset String :=
  match dep with
  | PkgEntry.str s => (insert s acc.1, acc.2)
  | PkgEntry.pip ps => (acc.1, acc.2 ∪ ps.toFinset)

/-- `dedupe(dependencies)`: one pass building the set of plain strings and the
set of pip packages, then the sorted strings followed by a single sorted `pip`
bucket when the pip set is non-empty. -/
def dedupe (dependencies : List PkgEntry) : List Dep :=
  let sets := dependencies.foldl dedupeStep (∅, ∅)
  if sets.2 = ∅ then
    (finsetSorted sets.1).map Dep.str
  else
    (finsetSorted sets.1).map Dep.str ++ [Dep.dict [("pip", finsetSorted sets.2)]]

/-! ## The per-entry scan of `make_dependency_files` (lines 434-474) -/

/-- A Python `for`-loop over a list whose body may `raise`, collecting one
result per element; the first error aborts the whole loop. -/
def mapE {α β : Type} (f : α → Except GenError β) : List α → Except GenError (List β)
  | [] => Except.ok []
  | a :: rest =>
    match f a with
    | Except.error e => Except.error e
    | Except.ok b =>
      match mapE f rest with
      | Except.error e => Except.error e
      | Except.ok bs => Except.ok (b :: bs)

/-- The `for specific_matrices_entry in specific_entry.matrices: ... else: ...`
scan (lines 452-474): an empty matrix is remembered as the fallback and
skipped; the first non-empty matrix that matches the combo contributes its
packages and stops the scan; if the loop finishes without a match, the fallback
contributes its packages, and without a fallback a configuration error names
the include and the combo. -/
def scanMatricesAux (includeName : String) (matrix_combo : List (String × String))
    (fallback : Option MatrixRule) : List MatrixRule → Except GenError (List PkgEntry)
  | [] =>
    match fallback with
    | some fb => Except.ok fb.packages
    | none => Except.error (GenError.noMatchingMatrix includeName matrix_combo)
  | r :: rest =>
    if r.matrix.isEmpty then scanMatricesAux includeName matrix_combo (some r) rest
    else if should_use_specific_entry matrix_combo r.matrix then Except.ok r.packages
    else scanMatricesAux includeName matrix_combo fallback rest

/-- The uniqueness test of lines 438-446: the number of matrices must equal the
number of distinct matrices, each taken as `frozenset(matrix.items())`. -/
def matricesAllUnique (matrices : List MatrixRule) : Bool :=
  matrices.length = ((matrices.map fun r => r.matrix.toFinset).dedup).length

/-- Process one `SpecificEntry` for one tuple (lines 434-474): skip it when the
output type is not requested, otherwise check matrix uniqueness and run the
first-match scan; the result is this entry's contribution to `dependencies`. -/
def processSpecificEntry (includeName : String) (file_type : Output)
    (matrix_combo : List (String × String)) (e : SpecificEntry) :
    Except GenError (List PkgEntry) :=
  if file_type ∈ e.output_types then
    if matricesAllUnique e.matrices then
      scanMatricesAux includeName matrix_combo none e.matrices
    else
      Except.error (GenError.duplicateMatrices includeName (e.matrices.map fun r => r.matrix))
  else
    Except.ok []

/-- Process one include for one tuple (lines 426-474): the packages of every
`CommonEntry` tagged with the output type, then the contribution of every
`SpecificEntry` in declared order. -/
def resolveInclude (file_type : Output) (matrix_combo : List (String × String))
    (includeName : String) (ds : DependencySet) : Except GenError (List PkgEntry) :=
  match mapE (processSpecificEntry includeName file_type matrix_combo) ds.specific with
  | Except.error e => Except.error e
  | Except.ok specials =>
    Except.ok
      (((ds.common.filter fun ce => ce.output_types.contains file_type).flatMap
          fun ce => ce.packages) ++ specials.flatten)

/-- Resolve one `(file_key, file_type, matrix_combo)` tuple (lines 420-478):
concatenate the contributions of the includes in declared order and dedupe. -/
def resolveTuple (deps : String → DependencySet) (fc : FileCfg) (file_type : Output)
    (matrix_combo : List (String × String)) :
    Except GenError (Output × List (String × String) × List Dep) :=
  match mapE (fun nm => resolveInclude file_type matrix_combo nm (deps nm)) fc.includes with
  | Except.error e => Except.error e
  | Except.ok pkgs => Except.ok (file_type, matrix_combo, dedupe pkgs.flatten)

/-- The resolution pass of `make_dependency_files` for one file key (lines
409-478): effective output types and matrix (overrides first), grid expansion,
the PYPROJECT single-combo check, then every `(file_type, matrix_combo)` tuple
in loop order.  `deps` models `parsed_config.dependencies`; rendering and
filesystem writes are outside the resolution engine and are modelled
separately. -/
def processFile (deps : String → DependencySet) (fc : FileCfg)
    (outputOverride : Option (List Output))
    (matrixOverride : Option (List (String × List String))) :
    Except GenError (List (Output × List (String × String) × List Dep)) :=
  let file_types := outputOverride.getD fc.output
  let file_matrix := matrixOverride.getD fc.matrix
  let calculated_grid := grid file_matrix
  if Output.pyproject ∈ file_types ∧ calculated_grid.length > 1 then
    Except.error GenError.pyprojectMatrix
  else
    match mapE (fun ft => mapE (resolveTuple deps fc ft) calculated_grid) file_types with
    | Except.error e => Except.error e
    | Except.ok tuples => Except.ok tuples.flatten

/-! ## `_DependencyCollection` (lines 330-353) -/

/-- `sorted(set(lst))` on a list of strings. -/
def sortDedup (l : List String) : List String :=
  finsetSorted l.toFinset

/-- The `_DependencyCollection` accumulator: a set of plain strings and an
insertion-ordered bucket map. -/
structure DependencyCollection where
  str_deps : Finset String
  dict_deps : List (String × List String)
deriving DecidableEq

/-- Fold one bucket pair into `dict_deps` (lines 340-344): an existing key is
extended in place and re-sorted as `sorted(set(...))`; a new key is appended at
the end with its list stored as given. -/
def bucketInsert (d : List (String × List String)) (k : String) (v : List String) :
    List (String × List String) :=
  if (d.lookup k).isSome then
    d.map fun kv => if kv.1 = k then (kv.1, sortDedup (kv.2 ++ v)) else kv
  else
    d ++ [(k, v)]

/-- Absorb one entry (`for dep in deps:` body, lines 337-346). -/
def updateEntry (c : DependencyCollection) (dep : Dep) : DependencyCollection :=
  match dep with
  | Dep.str s => { c with str_deps := insert s c.str_deps }
  | Dep.dict entries =>
    { c with dict_deps := entries.foldl (fun d kv => bucketInsert d kv.1 kv.2) c.dict_deps }

/-- `_DependencyCollection.update(deps)` (lines 336-346). -/
def update (c : DependencyCollection) (deps : List Dep) : DependencyCollection :=
  deps.foldl updateEntry c

/-- `_DependencyCollection.deps_list` (lines 348-353): sorted plain strings,
followed by the bucket map whenever the bucket map is a non-empty dict. -/
def deps_list (c : DependencyCollection) : List Dep :=
  if c.dict_deps.isEmpty then
    (finsetSorted c.str_deps).map Dep.str
  else
    (finsetSorted c.str_deps).map Dep.str ++ [Dep.dict c.dict_deps]

/-! ## `make_dependency_file` (lines 96-213): the REQUIREMENTS body and the
PYPROJECT target-key resolution -/

/-- The REQUIREMENTS loop of lines 152-157, with `acc` the header built so far:
a bucket-map entry raises, a plain string appends one line. -/
def requirementsGo (acc : String) : List Dep → Except GenError String
  | [] => Except.ok acc
  | Dep.dict bs :: _ => Except.error (GenError.mapInput bs)
  | Dep.str s :: rest => requirementsGo (acc ++ s ++ "\n") rest

/-- The REQUIREMENTS branch of `make_dependency_file`: the two-line generated
header (already assembled in `header`) followed by one package per line. -/
def requirementsContents (header : String) (dependencies : List Dep) :
    Except GenError String :=
  requirementsGo header dependencies

/-- The PYPROJECT target-key resolution of lines 158-180: missing extras is an
error; table `build-system` forces key `requires` and table `project` forces
key `dependencies`, both rejecting an explicit key; any other table requires
the explicit key. -/
def pyprojectTargetKey (extras : Option FileExtras) : Except GenError String :=
  match extras with
  | none => Except.error GenError.missingExtras
  | some e =>
    if e.table = "build-system" then
      match e.key with
      | some _ => Except.error GenError.keyNotAllowedBuildSystem
      | none => Except.ok "requires"
    else if e.table = "project" then
      match e.key with
      | some _ => Except.error GenError.keyNotAllowedProject
      | none => Except.ok "dependencies"
    else
      match e.key with
      | none => Except.error GenError.keyRequired
      | some k => Except.ok k

/-! ## Theorems -/

theorem stringJoin_cons (a : String) (l : List String) :
    String.join (a :: l) = a ++ String.join l := by
  have aux : ∀ (l : List String) (x : String),
      l.foldl (· ++ ·) x = x ++ l.foldl (· ++ ·) "" := by
    intro l
    induction l with
    | nil => intro x; simp
    | cons b rest ih =>
      intro x
      simp only [List.foldl_cons]
      rw [ih (x ++ b), ih ("" ++ b)]
      simp [String.append_assoc]
  simp only [String.join, List.foldl_cons]
  rw [aux l ("" ++ a)]
  simp

/-- The string content of a `Dep.str` entry (and `""` on a bucket map). -/
def depString : Dep → String
  | Dep.str s => s
  | Dep.dict _ => ""

theorem requirementsGo_ok (deps : List Dep) :
    ∀ acc : String, (∀ d ∈ deps, ∃ s, d = Dep.str s) →
      requirementsGo acc deps =
        Except.ok (acc ++ String.join (deps.map fun d => depString d ++ "\n")) := by
  induction deps with
  | nil => intro acc _; simp [requirementsGo, String.join]
  | cons d rest ih =>
    intro acc h
    obtain ⟨s, hs⟩ := h d (List.mem_cons_self d rest)
    subst hs
    rw [requirementsGo, ih (acc ++ s ++ "\n") (fun x hx => h x (List.mem_cons_of_mem _ hx))]
    simp [stringJoin_cons, depString, String.append_assoc]

theorem requirementsGo_error (deps : List Dep) :
    ∀ acc : String, (∃ bs, Dep.dict bs ∈ deps) →
      ∃ bs, requirementsGo acc deps = Except.error (GenError.mapInput bs) := by
  induction deps with
  | nil =>
    intro acc h
    obtain ⟨bs, hbs⟩ := h
    exact absurd hbs (List.not_mem_nil _)
  | cons d rest ih =>
    intro acc h
    cases d with
    | dict bs => exact ⟨bs, rfl⟩
    | str s =>
      obtain ⟨bs, hbs⟩ := h
      rcases List.mem_cons.mp hbs with heq | hmem
      · exact absurd heq (by simp)
      · exact ih (acc ++ s ++ "\n") ⟨bs, hmem⟩

/-- C8: the REQUIREMENTS renderer fails with a format-mismatch error exactly
when some entry is a bucket map, and on a list of plain strings it produces the
header followed by one package per line, in the given order. -/
theorem requirementsContents_spec (header : String) (dependencies : List Dep) :
    ((∃ bs, Dep.dict bs ∈ dependencies) →
      ∃ bs, requirementsContents header dependencies =
        Except.error (GenError.mapInput bs)) ∧
    ((∀ d ∈ dependencies, ∃ s, d = Dep.str s) →
      requirementsContents header dependencies =
        Except.ok (header ++ String.join (dependencies.map fun d => depString d ++ "\n"))) := by
  exact ⟨requirementsGo_error dependencies header, requirementsGo_ok dependencies header⟩

theorem requirementsContents_spec_witness :
    requirementsContents "header\n" [Dep.str "numpy", Dep.str "pandas"] =
      Except.ok "header\nnumpy\npandas\n" := by
  have h := (requirementsContents_spec "header\n" [Dep.str "numpy", Dep.str "pandas"]).2
    (by intro d hd; simp at hd; rcases hd with h | h <;> exact ⟨_, h⟩)
  rw [h]
  rfl

/-- C9: the PYPROJECT target-key resolution: missing extras is an error, table
`build-system` forces key `requires` and table `project` forces key
`dependencies` (an explicit key is an error for both), and any other table uses
the caller-supplied key, whose omission is an error. -/
theorem pyprojectTargetKey_spec :
    pyprojectTargetKey none = Except.error GenError.missingExtras ∧
    pyprojectTargetKey (some ⟨"build-system", none⟩) = Except.ok "requires" ∧
    (∀ k, pyprojectTargetKey (some ⟨"build-system", some k⟩) =
      Except.error GenError.keyNotAllowedBuildSystem) ∧
    pyprojectTargetKey (some ⟨"project", none⟩) = Except.ok "dependencies" ∧
    (∀ k, pyprojectTargetKey (some ⟨"project", some k⟩) =
      Except.error GenError.keyNotAllowedProject) ∧
    (∀ t k, t ≠ "build-system" → t ≠ "project" →
      pyprojectTargetKey (some ⟨t, some k⟩) = Except.ok k) ∧
    (∀ t, t ≠ "build-system" → t ≠ "project" →
      pyprojectTargetKey (some ⟨t, none⟩) = Except.error GenError.keyRequired) := by
  refine ⟨rfl, by simp [pyprojectTargetKey], fun k => by simp [pyprojectTargetKey],
    by simp [pyprojectTargetKey], fun k => by simp [pyprojectTargetKey], ?_, ?_⟩
  · intro t k h1 h2
    simp [pyprojectTargetKey, h1, h2]
  · intro t h1 h2
    simp [pyprojectTargetKey, h1, h2]

theorem pyprojectTargetKey_spec_witness :
    pyprojectTargetKey (some ⟨"tool.rapids-build-backend", none⟩) =
      Except.error GenError.keyRequired :=
  pyprojectTargetKey_spec.2.2.2.2.2.2 "tool.rapids-build-backend" (by decide) (by decide)

/-- The pip members contributed by one `dedupe` input entry. -/
def pipPackages : PkgEntry → List String
  | PkgEntry.str _ => []
  | PkgEntry.pip ps => ps

/-- The plain string contributed by one `dedupe` input entry, if any. -/
def strPackage : PkgEntry → Option String
  | PkgEntry.str s => some s
  | PkgEntry.pip _ => none

theorem foldl_dedupeStep (dependencies : List PkgEntry) :
    ∀ a b : Finset String,
      dependencies.foldl dedupeStep (a, b) =
        (a ∪ (dependencies.filterMap strPackage).toFinset,
         b ∪ (dependencies.flatMap pipPackages).toFinset) := by
  induction dependencies with
  | nil => intro a b; simp
  | cons d rest ih =>
    intro a b
    cases d with
    | str s =>
      have hset : insert s a ∪ (rest.filterMap strPackage).toFinset =
          a ∪ insert s (rest.filterMap strPackage).toFinset := by
        ext x
        simp

      simp only [List.foldl_cons, dedupeStep, ih, List.filterMap_cons, strPackage,
        List.flatMap_cons, pipPackages, List.nil_append, List.toFinset_cons, hset]
    | pip ps =>
      have hset : b ∪ ps.toFinset ∪ (rest.flatMap pipPackages).toFinset =
          b ∪ (ps.toFinset ∪ (rest.flatMap pipPackages).toFinset) :=
        Finset.union_assoc _ _ _
      simp only [List.foldl_cons, dedupeStep, ih, List.filterMap_cons, strPackage,
        List.flatMap_cons, pipPackages, List.toFinset_append, hset]

/-- C10: `dedupe` folds every bucket entry into at most one bucket, keyed
exactly `"pip"` and holding the sorted union of all bucket members; when that
union is empty the result has no bucket entry at all and is exactly the sorted
plain strings. -/
theorem dedupe_spec (dependencies : List PkgEntry) :
    (∀ bs, Dep.dict bs ∈ dedupe dependencies →
      bs = [("pip", finsetSorted (dependencies.flatMap pipPackages).toFinset)]) ∧
    ((dependencies.flatMap pipPackages).toFinset = ∅ →
      dedupe dependencies =
        (finsetSorted (dependencies.filterMap strPackage).toFinset).map Dep.str) := by
  have hfold := foldl_dedupeStep dependencies ∅ ∅
  simp only [Finset.empty_union] at hfold
  have hd : dedupe dependencies =
      if (dependencies.flatMap pipPackages).toFinset = ∅ then
        (finsetSorted (dependencies.filterMap strPackage).toFinset).map Dep.str
      else
        (finsetSorted (dependencies.filterMap strPackage).toFinset).map Dep.str ++
          [Dep.dict [("pip", finsetSorted (dependencies.flatMap pipPackages).toFinset)]] := by
    simp only [dedupe, hfold]
  constructor
  · intro bs hmem
    rw [hd] at hmem
    by_cases hpip : (dependencies.flatMap pipPackages).toFinset = ∅
    · rw [if_pos hpip] at hmem
      simp only [List.mem_map] at hmem
      obtain ⟨x, -, hx⟩ := hmem
      exact absurd hx (by simp)
    · rw [if_neg hpip] at hmem
      simp only [List.mem_append, List.mem_map, List.mem_singleton] at hmem
      rcases hmem with ⟨x, -, hx⟩ | hx
      · exact absurd hx (by simp)
      · exact Dep.dict.inj hx
  · intro hpip
    rw [hd, if_pos hpip]

theorem dedupe_spec_witness :
    dedupe [PkgEntry.pip [], PkgEntry.str "b", PkgEntry.pip []] = [Dep.str "b"] := by
  rw [(dedupe_spec [PkgEntry.pip [], PkgEntry.str "b", PkgEntry.pip []]).2 (by decide)]
  decide

theorem lookup_match_iff (matrix_combo : List (String × String)) (kv : String × String) :
    ((match matrix_combo.lookup kv.1 with
      | some v => fnmatchB v kv.2
      | none => false) = true) ↔
      ∃ v, matrix_combo.lookup kv.1 = some v ∧ fnmatchB v kv.2 = true := by
  cases h : matrix_combo.lookup kv.1 <;> simp [h]

/-- C3: the specific-entry matcher returns true exactly when every rule-matrix
key is present in the combo with a glob-matching value (an absent key refutes
the rule), and combo keys outside the rule matrix never affect the result. -/
theorem should_use_specific_entry_spec :
    (∀ (matrix_combo specific_entry_matrix : List (String × String)),
      should_use_specific_entry matrix_combo specific_entry_matrix = true ↔
        ∀ kv ∈ specific_entry_matrix, ∃ v,
          matrix_combo.lookup kv.1 = some v ∧ fnmatchB v kv.2 = true) ∧
    (∀ (combo₁ combo₂ specific_entry_matrix : List (String × String)),
      (∀ kv ∈ specific_entry_matrix, combo₁.lookup kv.1 = combo₂.lookup kv.1) →
      should_use_specific_entry combo₁ specific_entry_matrix =
        should_use_specific_entry combo₂ specific_entry_matrix) := by
  constructor
  · intro combo rules
    simp only [should_use_specific_entry, List.all_eq_true]
    constructor
    · intro h kv hm
      exact (lookup_match_iff combo kv).mp (h kv hm)
    · intro h kv hm
      exact (lookup_match_iff combo kv).mpr (h kv hm)
  · intro c₁ c₂ rules h
    unfold should_use_specific_entry
    induction rules with
    | nil => rfl
    | cons kv rest ih =>
      simp only [List.all_cons]
      rw [h kv (List.mem_cons_self kv rest),
        ih fun x hx => h x (List.mem_cons_of_mem _ hx)]

theorem should_use_specific_entry_spec_witness :
    should_use_specific_entry [("cuda", "11.5"), ("arch", "x86_64")] [("cuda", "11.*")] = true := by
  apply (should_use_specific_entry_spec.1 _ _).mpr
  intro kv hkv
  simp only [List.mem_singleton] at hkv
  subst hkv
  exact ⟨"11.5", by decide, by decide⟩

theorem reverse_find?_of_countP_le_one {α : Type} (p : α → Bool) (l : List α)
    (h : l.countP p ≤ 1) : l.reverse.find? p = l.find? p := by
  induction l with
  | nil => rfl
  | cons a rest ih =>
    rw [List.reverse_cons, List.find?_append]
    by_cases pa : p a = true
    · have hzero : rest.countP p = 0 := by
        rw [List.countP_cons, if_pos pa] at h
        omega
      have hnone : rest.reverse.find? p = none := by
        rw [List.find?_eq_none]
        intro x hx
        exact (List.countP_eq_zero.mp hzero) x (List.mem_reverse.mp hx)
      rw [hnone, List.find?_cons_of_pos _ pa]
      simp [List.find?_cons_of_pos _ pa]
    · have hrest : rest.countP p ≤ 1 := by
        rw [List.countP_cons, if_neg pa] at h
        omega
      have hsingle : List.find? p [a] = none := by
        rw [List.find?_eq_none]
        intro x hx
        rw [List.mem_singleton.mp hx]
        exact pa
      rw [hsingle, Option.or_none, ih hrest, List.find?_cons_of_neg _ pa]

theorem scanMatricesAux_characterization (includeName : String)
    (matrix_combo : List (String × String)) (rules : List MatrixRule) :
    ∀ fallback : Option MatrixRule,
      scanMatricesAux includeName matrix_combo fallback rules =
        match (rules.filter fun r => !r.matrix.isEmpty).find?
            (fun r => should_use_specific_entry matrix_combo r.matrix) with
        | some r => Except.ok r.packages
        | none =>
          match ((rules.reverse.find? fun r => r.matrix.isEmpty).or fallback) with
          | some fb => Except.ok fb.packages
          | none => Except.error (GenError.noMatchingMatrix includeName matrix_combo) := by
  induction rules with
  | nil =>
    intro fallback
    cases fallback <;> rfl
  | cons r rest ih =>
    intro fallback
    by_cases hemp : r.matrix.isEmpty = true
    · rw [scanMatricesAux, if_pos hemp, ih (some r)]
      have hfilter : (r :: rest).filter (fun r => !r.matrix.isEmpty) =
          rest.filter fun r => !r.matrix.isEmpty :=
        List.filter_cons_of_neg (by simp [hemp])
      have hrev : ((r :: rest).reverse.find? fun r => r.matrix.isEmpty) =
          ((rest.reverse.find? fun r => r.matrix.isEmpty).or (some r)) := by
        rw [List.reverse_cons, List.find?_append]
        congr 1
        simp [List.find?_cons, hemp]
      have habsorb : ∀ o : Option MatrixRule, (o.or (some r)).or fallback = o.or (some r) := by
        intro o
        cases o <;> rfl
      rw [hfilter, hrev, habsorb]
    · rw [scanMatricesAux, if_neg hemp]
      have hfilter : (r :: rest).filter (fun r => !r.matrix.isEmpty) =
          r :: (rest.filter fun r => !r.matrix.isEmpty) :=
        List.filter_cons_of_pos (by simp [hemp])
      have hrev : ((r :: rest).reverse.find? fun r => r.matrix.isEmpty) =
          (rest.reverse.find? fun r => r.matrix.isEmpty) := by
        rw [List.reverse_cons, List.find?_append]
        have hone : List.find? (fun r => r.matrix.isEmpty) [r] = none := by
          rw [List.find?_eq_none]
          intro x hx
          rw [List.mem_singleton.mp hx]
          simp [hemp]
        rw [hone, Option.or_none]
      rw [hfilter, hrev]
      by_cases hm : should_use_specific_entry matrix_combo r.matrix = true
      · rw [if_pos hm]
        have hfind : List.find? (fun r => should_use_specific_entry matrix_combo r.matrix)
            (r :: (rest.filter fun r => !r.matrix.isEmpty)) = some r := by
          simp [List.find?_cons, hm]
        rw [hfind]
      · rw [if_neg hm]
        have hfind : List.find? (fun r => should_use_specific_entry matrix_combo r.matrix)
            (r :: (rest.filter fun r => !r.matrix.isEmpty)) =
            List.find? (fun r => should_use_specific_entry matrix_combo r.matrix)
              (rest.filter fun r => !r.matrix.isEmpty) := by
          simp [List.find?_cons, hm]
        rw [hfind, ih fallback]

/-- C1: when a `SpecificEntry` applies, the scan considers the non-empty-matrix
rules in declared order and yields the packages of the first whose matrix
matches the combo; if none matches it yields the fallback's packages when an
empty-matrix rule exists, and otherwise the configuration error naming the
include and the unmatched combo.  The hypothesis allows at most one fallback
rule, which the duplicate-matrix check guarantees for every scanned entry. -/
theorem scanMatrices_spec (includeName : String) (matrix_combo : List (String × String))
    (matrices : List MatrixRule)
    (hfb : (matrices.countP fun r => r.matrix.isEmpty) ≤ 1) :
    scanMatricesAux includeName matrix_combo none matrices =
      match (matrices.filter fun r => !r.matrix.isEmpty).find?
          (fun r => should_use_specific_entry matrix_combo r.matrix) with
      | some r => Except.ok r.packages
      | none =>
        match matrices.find? (fun r => r.matrix.isEmpty) with
        | some fb => Except.ok fb.packages
        | none => Except.error (GenError.noMatchingMatrix includeName matrix_combo) := by
  rw [scanMatricesAux_characterization includeName matrix_combo matrices none]
  rw [reverse_find?_of_countP_le_one _ _ hfb]
  simp only [Option.or_none]

theorem scanMatrices_spec_witness :
    scanMatricesAux "deps" [("cuda", "12.0")] none
        [⟨[("cuda", "11.*")], [PkgEntry.str "a"]⟩, ⟨[], [PkgEntry.str "fb"]⟩] =
      Except.ok [PkgEntry.str "fb"] := by
  rw [scanMatrices_spec "deps" [("cuda", "12.0")]
      [⟨[("cuda", "11.*")], [PkgEntry.str "a"]⟩, ⟨[], [PkgEntry.str "fb"]⟩] (by decide)]
  rfl

theorem length_dedup_eq_iff {α : Type} [DecidableEq α] (l : List α) :
    l.dedup.length = l.length ↔ l.Nodup := by
  constructor
  · intro h
    rw [← List.dedup_eq_self]
    exact (List.dedup_sublist l).eq_of_length h
  · intro h
    rw [List.dedup_eq_self.mpr h]

theorem matricesAllUnique_iff (matrices : List MatrixRule) :
    matricesAllUnique matrices = true ↔
      (matrices.map fun r => r.matrix.toFinset).Nodup := by
  simp only [matricesAllUnique, decide_eq_true_eq]
  have hm : matrices.length = (matrices.map fun r => r.matrix.toFinset).length :=
    (List.length_map _ _).symm
  rw [hm, eq_comm, length_dedup_eq_iff]

theorem scanMatricesAux_error_shape (includeName : String)
    (matrix_combo : List (String × String)) (rules : List MatrixRule) :
    ∀ (fallback : Option MatrixRule) (e : GenError),
      scanMatricesAux includeName matrix_combo fallback rules = Except.error e →
        e = GenError.noMatchingMatrix includeName matrix_combo := by
  induction rules with
  | nil =>
    intro fallback e h
    cases fallback with
    | some fb => exact absurd h (by simp [scanMatricesAux])
    | none =>
      rw [scanMatricesAux] at h
      exact (Except.error.inj h).symm
  | cons r rest ih =>
    intro fallback e h
    rw [scanMatricesAux] at h
    by_cases hemp : r.matrix.isEmpty = true
    · rw [if_pos hemp] at h
      exact ih (some r) e h
    · rw [if_neg hemp] at h
      by_cases hm : should_use_specific_entry matrix_combo r.matrix = true
      · rw [if_pos hm] at h
        cases h
      · rw [if_neg hm] at h
        exact ih fallback e h

/-- C4: for a `SpecificEntry` whose output types match, resolution fails with
the configuration error naming the include and listing every matrix of the
entry exactly when two of its matrices are equal as unordered key/value sets
(two empty fallback matrices included); pairwise distinct matrices never raise
this error. -/
theorem processSpecificEntry_duplicates_spec (includeName : String) (file_type : Output)
    (matrix_combo : List (String × String)) (e : SpecificEntry)
    (hft : file_type ∈ e.output_types) :
    (¬ (e.matrices.map fun r => r.matrix.toFinset).Nodup →
      processSpecificEntry includeName file_type matrix_combo e =
        Except.error (GenError.duplicateMatrices includeName
          (e.matrices.map fun r => r.matrix))) ∧
    ((e.matrices.map fun r => r.matrix.toFinset).Nodup →
      ∀ nm ms, processSpecificEntry includeName file_type matrix_combo e ≠
        Except.error (GenError.duplicateMatrices nm ms)) := by
  constructor
  · intro hdup
    have hfalse : matricesAllUnique e.matrices = false := by
      cases hmu : matricesAllUnique e.matrices with
      | false => rfl
      | true => exact absurd ((matricesAllUnique_iff e.matrices).mp hmu) hdup
    rw [processSpecificEntry, if_pos hft, hfalse]
    simp
  · intro hnodup nm ms hcontra
    rw [processSpecificEntry, if_pos hft,
      (matricesAllUnique_iff e.matrices).mpr hnodup] at hcontra
    simp only [if_true] at hcontra
    have := scanMatricesAux_error_shape includeName matrix_combo e.matrices none _ hcontra
    cases this

theorem processSpecificEntry_duplicates_spec_witness :
    processSpecificEntry "deps" Output.conda []
        ⟨[Output.conda], [⟨[("cuda", "11.*")], []⟩, ⟨[("cuda", "11.*")], [PkgEntry.str "x"]⟩]⟩ =
      Except.error (GenError.duplicateMatrices "deps" [[("cuda", "11.*")], [("cuda", "11.*")]]) :=
  (processSpecificEntry_duplicates_spec "deps" Output.conda []
    ⟨[Output.conda], [⟨[("cuda", "11.*")], []⟩, ⟨[("cuda", "11.*")], [PkgEntry.str "x"]⟩]⟩
    (by decide)).1 (by decide)

theorem mapE_error {α β : Type} (f : α → Except GenError β) (l : List α) (e : GenError)
    (h : mapE f l = Except.error e) : ∃ a ∈ l, f a = Except.error e := by
  induction l with
  | nil => exact absurd h (by simp [mapE])
  | cons a rest ih =>
    rw [mapE] at h
    cases hfa : f a with
    | error e' =>
      rw [hfa] at h
      cases h
      exact ⟨a, List.mem_cons_self a rest, hfa⟩
    | ok b =>
      rw [hfa] at h
      cases hrest : mapE f rest with
      | error e' =>
        rw [hrest] at h
        cases h
        obtain ⟨x, hx, hfx⟩ := ih hrest
        exact ⟨x, List.mem_cons_of_mem a hx, hfx⟩
      | ok bs =>
        rw [hrest] at h
        cases h

theorem processSpecificEntry_error_shape (includeName : String) (file_type : Output)
    (matrix_combo : List (String × String)) (ent : SpecificEntry) (e : GenError)
    (h : processSpecificEntry includeName file_type matrix_combo ent = Except.error e) :
    e = GenError.duplicateMatrices includeName (ent.matrices.map fun r => r.matrix) ∨
      e = GenError.noMatchingMatrix includeName matrix_combo := by
  rw [processSpecificEntry] at h
  by_cases hft : file_type ∈ ent.output_types
  · rw [if_pos hft] at h
    by_cases hu : matricesAllUnique ent.matrices = true
    · rw [if_pos hu] at h
      exact Or.inr (scanMatricesAux_error_shape includeName matrix_combo ent.matrices none e h)
    · rw [if_neg hu] at h
      cases h
      exact Or.inl rfl
  · rw [if_neg hft] at h
    cases h

theorem resolveInclude_error_shape (file_type : Output)
    (matrix_combo : List (String × String)) (includeName : String) (ds : DependencySet)
    (e : GenError) (h : resolveInclude file_type matrix_combo includeName ds = Except.error e) :
    (∃ ms, e = GenError.duplicateMatrices includeName ms) ∨
      e = GenError.noMatchingMatrix includeName matrix_combo := by
  rw [resolveInclude] at h
  cases hm : mapE (processSpecificEntry includeName file_type matrix_combo) ds.specific with
  | error e' =>
    rw [hm] at h
    cases h
    obtain ⟨ent, -, hent⟩ := mapE_error _ _ _ hm
    rcases processSpecificEntry_error_shape includeName file_type matrix_combo ent e hent
      with h' | h'
    · exact Or.inl ⟨_, h'⟩
    · exact Or.inr h'
  | ok specials =>
    rw [hm] at h
    cases h

theorem resolveTuple_ne_pyprojectMatrix (deps : String → DependencySet) (fc : FileCfg)
    (file_type : Output) (matrix_combo : List (String × String)) :
    resolveTuple deps fc file_type matrix_combo ≠ Except.error GenError.pyprojectMatrix := by
  rw [resolveTuple]
  cases hm : mapE (fun nm => resolveInclude file_type matrix_combo nm (deps nm)) fc.includes with
  | error e =>
    intro h
    cases h
    obtain ⟨nm, -, hnm⟩ := mapE_error _ _ _ hm
    rcases resolveInclude_error_shape file_type matrix_combo nm (deps nm) _ hnm with ⟨ms, h'⟩ | h'
    · cases h'
    · cases h'
  | ok pkgs =>
    intro h
    cases h

/-- C6: per file key, if PYPROJECT is among the effective output types and the
effective matrix expands to more than one combo, resolution fails with the
dedicated configuration error regardless of the dependency sets (so before any
tuple is resolved); with exactly one combo, or without PYPROJECT, this error is
never raised. -/
theorem processFile_pyproject_spec (fc : FileCfg) (outputOverride : Option (List Output))
    (matrixOverride : Option (List (String × List String))) :
    (Output.pyproject ∈ outputOverride.getD fc.output ∧
        (grid (matrixOverride.getD fc.matrix)).length > 1 →
      ∀ deps, processFile deps fc outputOverride matrixOverride =
        Except.error GenError.pyprojectMatrix) ∧
    ((grid (matrixOverride.getD fc.matrix)).length = 1 ∨
        Output.pyproject ∉ outputOverride.getD fc.output →
      ∀ deps, processFile deps fc outputOverride matrixOverride ≠
        Except.error GenError.pyprojectMatrix) := by
  constructor
  · intro h deps
    simp only [processFile]
    rw [if_pos h]
  · intro h deps hcontra
    have hcond : ¬ (Output.pyproject ∈ outputOverride.getD fc.output ∧
        (grid (matrixOverride.getD fc.matrix)).length > 1) := by
      rcases h with h | h
      · rintro ⟨-, hgt⟩
        omega
      · rintro ⟨hmem, -⟩
        exact h hmem
    simp only [processFile] at hcontra
    rw [if_neg hcond] at hcontra
    cases hm : mapE (fun ft => mapE (resolveTuple deps fc ft)
        (grid (matrixOverride.getD fc.matrix))) (outputOverride.getD fc.output) with
    | error e =>
      rw [hm] at hcontra
      cases hcontra
      obtain ⟨ft, -, hft⟩ := mapE_error _ _ _ hm
      obtain ⟨combo, -, hcombo⟩ := mapE_error _ _ _ hft
      exact resolveTuple_ne_pyprojectMatrix deps fc ft combo hcombo
    | ok tuples =>
      rw [hm] at hcontra
      cases hcontra

theorem processFile_pyproject_spec_witness :
    processFile (fun _ => ⟨[], []⟩) ⟨[Output.pyproject], [], [("cuda", ["11", "12"])]⟩
        none none = Except.error GenError.pyprojectMatrix :=
  (processFile_pyproject_spec ⟨[Output.pyproject], [], [("cuda", ["11", "12"])]⟩
    none none).1 ⟨by decide, by decide⟩ (fun _ => ⟨[], []⟩)


theorem sum_map_const {α : Type} (l : List α) (n : Nat) :
    (l.map fun _ => n).sum = l.length * n := by
  induction l with
  | nil => simp
  | cons x xs ih =>
    simp only [List.map_cons, List.sum_cons, List.length_cons, ih]
    ring

theorem listProd_length {α : Type} (xss : List (List α)) :
    (listProd xss).length = (xss.map List.length).prod := by
  induction xss with
  | nil => rfl
  | cons xs rest ih =>
    simp only [listProd, List.map_cons, List.prod_cons]
    rw [List.length_flatMap]
    have hconst : (List.map (List.length ∘ fun x => (listProd rest).map fun t => x :: t) xs) =
        List.map (fun _ => (listProd rest).length) xs := by
      apply List.map_congr_left
      intro x _
      simp
    rw [hconst, ih, sum_map_const]

theorem mem_listProd_length {α : Type} (xss : List (List α)) (t : List α)
    (h : t ∈ listProd xss) : t.length = xss.length := by
  induction xss generalizing t with
  | nil =>
    rw [List.mem_singleton.mp h]
    rfl
  | cons xs rest ih =>
    simp only [listProd, List.mem_flatMap, List.mem_map] at h
    obtain ⟨x, -, t', ht', rfl⟩ := h
    simp [ih t' ht']

theorem listProd_nodup {α : Type} (xss : List (List α)) (h : ∀ xs ∈ xss, xs.Nodup) :
    (listProd xss).Nodup := by
  induction xss with
  | nil => simp [listProd]
  | cons xs rest ih =>
    simp only [listProd]
    refine List.nodup_flatMap.2 ⟨?_, ?_⟩
    · intro x _
      exact (ih fun ys hys => h ys (List.mem_cons_of_mem _ hys)).map
        fun t₁ t₂ hc => (List.cons.inj hc).2
    · refine (h xs (List.mem_cons_self _ _)).imp ?_
      intro x₁ x₂ hne t ht₁ ht₂
      obtain ⟨t₁, -, rfl⟩ := List.mem_map.1 ht₁
      obtain ⟨t₂, -, hc⟩ := List.mem_map.1 ht₂
      exact hne (List.cons.inj hc.symm).1

theorem grid_cons_recurrence (k : String) (vs : List String)
    (rest : List (String × List String)) :
    grid ((k, vs) :: rest) = vs.flatMap fun v => (grid rest).map fun c => (k, v) :: c := by
  simp only [grid, List.map_cons, listProd, List.map_flatMap, List.map_map]
  apply congrArg (fun f => vs.flatMap f)
  funext v
  apply List.map_congr_left
  intro t _
  simp [Function.comp, List.zip_cons_cons]

/-- C5 (amended): the expander yields exactly the product count of combos,
pairwise distinct provided each axis value list has no duplicated value, each
combo carrying exactly the declared keys in declared order; the empty mapping
yields one empty combo, and the first axis is the outermost loop, so the last
axis varies fastest.  The expander is a total function, so it never fails. -/
theorem grid_spec (gridspec : List (String × List String)) :
    (grid gridspec).length = (gridspec.map fun kv => kv.2.length).prod ∧
    ((∀ kv ∈ gridspec, kv.2.Nodup) → (grid gridspec).Nodup) ∧
    (∀ combo ∈ grid gridspec, combo.map Prod.fst = gridspec.map fun kv => kv.1) ∧
    grid [] = [[]] ∧
    (∀ (k : String) (vs : List String) (rest : List (String × List String)),
      grid ((k, vs) :: rest) = vs.flatMap fun v => (grid rest).map fun c => (k, v) :: c) := by
  refine ⟨?_, ?_, ?_, rfl, grid_cons_recurrence⟩
  · rw [grid, List.length_map, listProd_length, List.map_map]
    rfl
  · intro h
    rw [grid]
    have hprod : (listProd (gridspec.map fun kv => kv.2)).Nodup := by
      apply listProd_nodup
      intro xs hxs
      obtain ⟨kv, hkv, rfl⟩ := List.mem_map.1 hxs
      exact h kv hkv
    apply List.Nodup.map_on ?_ hprod
    intro v₁ h₁ v₂ h₂ heq
    have hl₁ : v₁.length = gridspec.length := by
      rw [mem_listProd_length _ _ h₁, List.length_map]
    have hl₂ : v₂.length = gridspec.length := by
      rw [mem_listProd_length _ _ h₂, List.length_map]
    have hmap := congrArg (List.map Prod.snd) heq
    rwa [List.map_snd_zip _ _ (by rw [hl₁, List.length_map]),
      List.map_snd_zip _ _ (by rw [hl₂, List.length_map])] at hmap
  · intro combo hmem
    rw [grid] at hmem
    obtain ⟨values, hv, rfl⟩ := List.mem_map.1 hmem
    apply List.map_fst_zip
    rw [mem_listProd_length _ _ hv, List.length_map, List.length_map]

theorem grid_spec_witness :
    (grid [("a", ["1", "2"]), ("b", ["x"])]).Nodup ∧
    (grid [("a", ["1", "2"]), ("b", ["x"])]).length = 2 :=
  ⟨(grid_spec [("a", ["1", "2"]), ("b", ["x"])]).2.1 (by decide),
    (grid_spec [("a", ["1", "2"]), ("b", ["x"])]).1.trans (by decide)⟩

/-- C5 counterexample: with a duplicated axis value the expansion repeats the
same combo, so the combos are not pairwise distinct assignments. -/
theorem grid_distinct_counterexample :
    grid [("a", ["x", "x"])] = [[("a", "x")], [("a", "x")]] ∧
    ¬ (grid [("a", ["x", "x"])]).Nodup := by
  constructor
  · rfl
  · decide

/-! ## Facts about `_DependencyCollection.update` and `deps_list` -/

theorem toFinset_finsetSorted (s : Finset String) : (finsetSorted s).toFinset = s := by
  ext x
  rw [List.mem_toFinset, mem_finsetSorted]

theorem sortDedup_toFinset (l : List String) : (sortDedup l).toFinset = l.toFinset :=
  toFinset_finsetSorted _

theorem sortDedup_congr {l₁ l₂ : List String} (h : l₁.toFinset = l₂.toFinset) :
    sortDedup l₁ = sortDedup l₂ := by
  unfold sortDedup
  rw [h]

theorem sortDedup_sorted (l : List String) : List.Sorted strLeP (sortDedup l) :=
  finsetSorted_sorted _

theorem sortDedup_nodup (l : List String) : (sortDedup l).Nodup :=
  finsetSorted_nodup _

theorem sortDedup_ne_nil {l : List String} (h : l ≠ []) : sortDedup l ≠ [] := by
  intro hc
  have hempty := (finsetSorted_empty_iff l.toFinset).mp hc
  rw [List.toFinset_eq_empty_iff] at hempty
  exact h hempty

theorem sortDedup_eq_self {l : List String} (hs : List.Sorted strLeP l) (hn : l.Nodup) :
    sortDedup l = l :=
  List.eq_of_perm_of_sorted
    (List.perm_of_nodup_nodup_toFinset_eq (sortDedup_nodup l) hn (sortDedup_toFinset l))
    (sortDedup_sorted l) hs

/-- The plain strings merged by one entry list. -/
def strsOf (l : List Dep) : List String :=
  l.filterMap fun d =>
    match d with
    | Dep.str s => some s
    | Dep.dict _ => none

/-- The bucket lists merged for key `k` by one entry list, in merge order. -/
def pairsFor (k : String) (l : List Dep) : List (List String) :=
  l.flatMap fun d =>
    match d with
    | Dep.str _ => []
    | Dep.dict bs => (bs.filter fun kv => kv.1 = k).map fun kv => kv.2

/-- Folding bucket lists into an optional current value the way `update` does:
the first list is stored as given, every later one is merged as
`sorted(set(...))`. -/
def applyPairs (w : Option (List String)) : List (List String) → Option (List String)
  | [] => w
  | v :: vs =>
    match w with
    | some w₀ => applyPairs (some (sortDedup (w₀ ++ v))) vs
    | none => applyPairs (some v) vs

/-- Python's `==` on `_DependencyCollection` states: equal string sets and
bucket maps that agree as mappings (Python dict equality ignores key order). -/
def dcEquiv (c₁ c₂ : DependencyCollection) : Prop :=
  c₁.str_deps = c₂.str_deps ∧
    ∀ k, c₁.dict_deps.lookup k = c₂.dict_deps.lookup k

theorem applyPairs_append (ps qs : List (List String)) :
    ∀ w, applyPairs w (ps ++ qs) = applyPairs (applyPairs w ps) qs := by
  induction ps with
  | nil => intro w; rfl
  | cons v rest ih =>
    intro w
    cases w with
    | some w₀ =>
      rw [List.cons_append, applyPairs, applyPairs, ih]
    | none =>
      rw [List.cons_append, applyPairs, applyPairs, ih]

theorem applyPairs_some_eq (vs : List (List String)) :
    ∀ w, vs ≠ [] → applyPairs (some w) vs = some (sortDedup (w ++ vs.flatten)) := by
  induction vs with
  | nil =>
    intro w h
    exact absurd rfl h
  | cons v rest ih =>
    intro w _
    rw [applyPairs]
    by_cases hr : rest = []
    · subst hr
      simp [applyPairs]
    · rw [ih _ hr]
      congr 1
      apply sortDedup_congr
      simp [List.toFinset_append, sortDedup_toFinset, Finset.union_assoc]

theorem applyPairs_none_eq (v : List String) (vs : List (List String)) :
    applyPairs none (v :: vs) =
      if vs = [] then some v else some (sortDedup (v ++ vs.flatten)) := by
  rw [applyPairs]
  by_cases h : vs = []
  · subst h
    simp [applyPairs]
  · rw [if_neg h, applyPairs_some_eq vs v h]

theorem flatten_toFinset_perm {vs₁ vs₂ : List (List String)} (h : vs₁.Perm vs₂) :
    vs₁.flatten.toFinset = vs₂.flatten.toFinset := by
  ext x
  simp only [List.mem_toFinset, List.mem_flatten]
  constructor
  · rintro ⟨l, hl, hx⟩
    exact ⟨l, h.mem_iff.mp hl, hx⟩
  · rintro ⟨l, hl, hx⟩
    exact ⟨l, h.mem_iff.mpr hl, hx⟩

theorem applyPairs_perm (w : Option (List String)) {vs₁ vs₂ : List (List String)}
    (h : vs₁.Perm vs₂) : applyPairs w vs₁ = applyPairs w vs₂ := by
  cases w with
  | some w₀ =>
    cases vs₁ with
    | nil =>
      rw [h.symm.eq_nil]
    | cons v rest =>
      have h₂ : vs₂ ≠ [] := by
        intro hc
        subst hc
        exact List.cons_ne_nil v rest h.eq_nil
      rw [applyPairs_some_eq _ w₀ (List.cons_ne_nil v rest), applyPairs_some_eq _ w₀ h₂]
      congr 1
      apply sortDedup_congr
      rw [List.toFinset_append, List.toFinset_append, flatten_toFinset_perm h]
  | none =>
    cases vs₁ with
    | nil =>
      rw [h.symm.eq_nil]
    | cons v rest =>
      cases rest with
      | nil =>
        rw [List.perm_singleton.mp h.symm]
      | cons v' rest' =>
        have hlen := h.length_eq
        cases vs₂ with
        | nil => simp at hlen
        | cons u us =>
          cases us with
          | nil =>
            simp only [List.length_cons, List.length_nil] at hlen
            omega
          | cons u' us' =>
            rw [applyPairs_none_eq, applyPairs_none_eq,
              if_neg (List.cons_ne_nil _ _), if_neg (List.cons_ne_nil _ _)]
            congr 1
            rw [← List.flatten_cons, ← List.flatten_cons]
            exact sortDedup_congr (flatten_toFinset_perm h)

theorem lookup_bucketMap (d : List (String × List String)) (k : String) (v : List String)
    (k' : String) :
    (d.map fun kv => if kv.1 = k then (kv.1, sortDedup (kv.2 ++ v)) else kv).lookup k' =
      if k' = k then (d.lookup k).map fun w => sortDedup (w ++ v)
      else d.lookup k' := by
  induction d with
  | nil => by_cases h : k' = k <;> simp [h]
  | cons kv rest ih =>
    obtain ⟨k₀, v₀⟩ := kv
    rw [List.map_cons]
    by_cases hk₀ : k₀ = k
    · subst hk₀
      rw [if_pos rfl]
      by_cases hk' : k' = k₀
      · subst hk'
        simp [List.lookup_cons]
      · simp [List.lookup_cons, hk', ih, beq_eq_false_iff_ne.mpr hk']
    · rw [if_neg hk₀]
      by_cases hk' : k' = k₀
      · subst hk'
        simp [List.lookup_cons, hk₀]
      · simp [List.lookup_cons, hk', ih, hk₀, beq_eq_false_iff_ne.mpr hk',
          beq_eq_false_iff_ne.mpr (show k ≠ k₀ from fun hc => hk₀ hc.symm)]

theorem lookup_bucketInsert (d : List (String × List String)) (k : String) (v : List String)
    (k' : String) :
    (bucketInsert d k v).lookup k' =
      if k' = k then
        match d.lookup k with
        | some w => some (sortDedup (w ++ v))
        | none => some v
      else d.lookup k' := by
  rw [bucketInsert]
  by_cases hsome : (d.lookup k).isSome = true
  · rw [if_pos hsome, lookup_bucketMap]
    obtain ⟨w, hw⟩ := Option.isSome_iff_exists.mp hsome
    rw [hw]
    rfl
  · rw [if_neg hsome, List.lookup_append]
    have hnone : d.lookup k = none := Option.not_isSome_iff_eq_none.mp hsome
    by_cases hk : k' = k
    · subst hk
      rw [hnone, Option.none_or]
      simp [List.lookup_cons, hnone]
    · have hsingle : List.lookup k' [(k, v)] = none := by
        simp [List.lookup_cons, beq_eq_false_iff_ne.mpr hk]
      rw [hsingle, Option.or_none, if_neg hk]

theorem lookup_foldBuckets (bs : List (String × List String)) (k : String) :
    ∀ d, (bs.foldl (fun d kv => bucketInsert d kv.1 kv.2) d).lookup k =
      applyPairs (d.lookup k) ((bs.filter fun kv => kv.1 = k).map fun kv => kv.2) := by
  induction bs with
  | nil => intro d; rfl
  | cons kv rest ih =>
    obtain ⟨k₀, v₀⟩ := kv
    intro d
    rw [List.foldl_cons, ih]
    by_cases hk₀ : k₀ = k
    · subst hk₀
      have hfilter : ((k₀, v₀) :: rest).filter (fun kv => kv.1 = k₀) =
          (k₀, v₀) :: rest.filter fun kv => kv.1 = k₀ :=
        List.filter_cons_of_pos (by simp)
      rw [hfilter, List.map_cons]
      rw [lookup_bucketInsert, if_pos rfl]
      cases d.lookup k₀ with
      | some w => rfl
      | none => rfl
    · have hfilter : ((k₀, v₀) :: rest).filter (fun kv => kv.1 = k) =
          rest.filter fun kv => kv.1 = k :=
        List.filter_cons_of_neg (by simp [hk₀])
      rw [hfilter, lookup_bucketInsert, if_neg (fun hc => hk₀ hc.symm)]

theorem lookup_updateEntry (c : DependencyCollection) (dep : Dep) (k : String) :
    (updateEntry c dep).dict_deps.lookup k =
      applyPairs (c.dict_deps.lookup k) (pairsFor k [dep]) := by
  cases dep with
  | str s => rfl
  | dict bs =>
    rw [updateEntry]
    simp only [pairsFor, List.flatMap_cons, List.flatMap_nil, List.append_nil]
    exact lookup_foldBuckets bs k c.dict_deps

theorem lookup_update (l : List Dep) (k : String) :
    ∀ c : DependencyCollection,
      (update c l).dict_deps.lookup k =
        applyPairs (c.dict_deps.lookup k) (pairsFor k l) := by
  induction l with
  | nil => intro c; rfl
  | cons d rest ih =>
    intro c
    rw [update, List.foldl_cons]
    have hrest : (update (updateEntry c d) rest).dict_deps.lookup k =
        applyPairs ((updateEntry c d).dict_deps.lookup k) (pairsFor k rest) := ih _
    rw [show List.foldl updateEntry (updateEntry c d) rest = update (updateEntry c d) rest
        from rfl, hrest, lookup_updateEntry]
    have hsplit : pairsFor k (d :: rest) = pairsFor k [d] ++ pairsFor k rest := by
      simp [pairsFor]
    rw [hsplit, applyPairs_append]

theorem strDeps_update (l : List Dep) :
    ∀ c : DependencyCollection,
      (update c l).str_deps = c.str_deps ∪ (strsOf l).toFinset := by
  induction l with
  | nil => intro c; simp [update, strsOf]
  | cons d rest ih =>
    intro c
    rw [update, List.foldl_cons,
      show List.foldl updateEntry (updateEntry c d) rest = update (updateEntry c d) rest
        from rfl, ih]
    cases d with
    | str s =>
      have hstrs : strsOf (Dep.str s :: rest) = s :: strsOf rest := by
        simp [strsOf]
      rw [hstrs, updateEntry]
      ext x
      simp only [List.toFinset_cons, Finset.mem_union, Finset.mem_insert]
      tauto
    | dict bs =>
      have hstrs : strsOf (Dep.dict bs :: rest) = strsOf rest := by
        simp [strsOf]
      rw [hstrs, updateEntry]

/-- A dependency entry whose bucket lists are sorted and duplicate-free, as the
bucket list of every `dedupe` output is. -/
def sortedDep : Dep → Prop
  | Dep.str _ => True
  | Dep.dict bs => ∀ kv ∈ bs, List.Sorted strLeP kv.2 ∧ kv.2.Nodup

theorem pairsFor_sorted {l : List Dep} (h : ∀ d ∈ l, sortedDep d) (k : String) :
    ∀ v ∈ pairsFor k l, List.Sorted strLeP v ∧ v.Nodup := by
  intro v hv
  rw [pairsFor, List.mem_flatMap] at hv
  obtain ⟨d, hd, hvd⟩ := hv
  cases d with
  | str s => simp at hvd
  | dict bs =>
    simp only [List.mem_map, List.mem_filter] at hvd
    obtain ⟨kv, ⟨hkv, -⟩, rfl⟩ := hvd
    exact (h _ hd) kv hkv

theorem applyPairs_idem (ps : List (List String))
    (hps : ∀ v ∈ ps, List.Sorted strLeP v ∧ v.Nodup) :
    ∀ w, applyPairs (applyPairs w ps) ps = applyPairs w ps := by
  intro w
  rcases ps with _ | ⟨v, vs⟩
  · rfl
  · cases w with
    | some w₀ =>
      rw [applyPairs_some_eq _ w₀ (List.cons_ne_nil v vs),
        applyPairs_some_eq _ _ (List.cons_ne_nil v vs)]
      congr 1
      apply sortDedup_congr
      rw [List.toFinset_append, sortDedup_toFinset, List.toFinset_append,
        Finset.union_assoc, Finset.union_self]
    | none =>
      rcases vs with _ | ⟨v', vs'⟩
      · obtain ⟨hs, hn⟩ := hps v (List.mem_singleton.mpr rfl)
        have hv : applyPairs none [v] = some v := by
          rw [applyPairs_none_eq, if_pos rfl]
        rw [hv, applyPairs_some_eq _ v (List.cons_ne_nil v []),
          show ([v] : List (List String)).flatten = v ++ [] from rfl, List.append_nil]
        have hfin : (v ++ v).toFinset = v.toFinset := by
          rw [List.toFinset_append, Finset.union_self]
        rw [sortDedup_congr hfin, sortDedup_eq_self hs hn]
      · have hne : (v' :: vs' : List (List String)) ≠ [] := List.cons_ne_nil v' vs'
        rw [applyPairs_none_eq, if_neg hne,
          applyPairs_some_eq _ _ (List.cons_ne_nil v (v' :: vs'))]
        congr 1
        apply sortDedup_congr
        rw [List.toFinset_append, sortDedup_toFinset]
        simp only [List.flatten_cons]
        rw [Finset.union_self]

/-- C7 (amended): `_DependencyCollection.update` is commutative with respect to
the order of the entries of one merged list, with states compared as Python's
`==` compares them (string sets and bucket maps as mappings); it is idempotent
on repeated identical input provided every bucket list in the merged entries is
sorted and deduplicated, which holds for every list the generator merges since
those are `dedupe` outputs.  Without that proviso idempotence fails (see the
counterexample): the first merge stores a bucket list verbatim and the second
re-sorts and deduplicates it. -/
theorem update_comm_idem_spec :
    (∀ (c : DependencyCollection) (l₁ l₂ : List Dep), l₁.Perm l₂ →
      dcEquiv (update c l₁) (update c l₂)) ∧
    (∀ (c : DependencyCollection) (l : List Dep), (∀ d ∈ l, sortedDep d) →
      dcEquiv (update (update c l) l) (update c l)) := by
  constructor
  · intro c l₁ l₂ h
    constructor
    · rw [strDeps_update, strDeps_update]
      congr 1
      ext x
      simp only [List.mem_toFinset]
      exact (List.Perm.filterMap _ h).mem_iff
    · intro k
      rw [lookup_update, lookup_update]
      exact applyPairs_perm _ (List.Perm.flatMap_right _ h)
  · intro c l hgood
    constructor
    · rw [strDeps_update, strDeps_update, Finset.union_assoc, Finset.union_self]
    · intro k
      rw [lookup_update, lookup_update]
      exact applyPairs_idem _ (pairsFor_sorted hgood k) _

theorem update_comm_idem_spec_witness :
    dcEquiv (update ⟨∅, []⟩ [Dep.str "a", Dep.dict [("pip", ["x"])]])
      (update ⟨∅, []⟩ [Dep.dict [("pip", ["x"])], Dep.str "a"]) :=
  update_comm_idem_spec.1 ⟨∅, []⟩ _ _ (by decide)

/-- C7 counterexample: merging the same entry list twice changes the
accumulator: the bucket list `["b", "a"]` is stored verbatim by the first merge
and re-sorted and deduplicated to `["a", "b"]` by the second, so even the
`"pip"` bucket's value differs. -/
theorem update_idem_counterexample :
    (update (update ⟨∅, []⟩ [Dep.dict [("pip", ["b", "a"])]])
        [Dep.dict [("pip", ["b", "a"])]]).dict_deps.lookup "pip" ≠
      (update ⟨∅, []⟩ [Dep.dict [("pip", ["b", "a"])]]).dict_deps.lookup "pip" := by
  decide

/-- Accumulator states reachable by merge operations from the fresh accumulator
`_DependencyCollection(str_deps=set(), dict_deps={})`. -/
inductive Reachable : DependencyCollection → Prop
  | init : Reachable ⟨∅, []⟩
  | step (c : DependencyCollection) (l : List Dep) :
      Reachable c → Reachable (update c l)

/-- A dependency entry in the canonical shape `dedupe` produces: every bucket
list sorted, duplicate-free and non-empty. -/
def canonicalDep : Dep → Prop
  | Dep.str _ => True
  | Dep.dict bs => ∀ kv ∈ bs, (List.Sorted strLeP kv.2 ∧ kv.2.Nodup) ∧ kv.2 ≠ []

/-- Accumulator states reachable by merging only canonically shaped lists, as
`make_dependency_files` does: it merges only `dedupe` outputs. -/
inductive ReachableCanonical : DependencyCollection → Prop
  | init : ReachableCanonical ⟨∅, []⟩
  | step (c : DependencyCollection) (l : List Dep) :
      ReachableCanonical c → (∀ d ∈ l, canonicalDep d) →
      ReachableCanonical (update c l)

/-- Every bucket list of the map is sorted, duplicate-free and non-empty. -/
def goodBuckets (d : List (String × List String)) : Prop :=
  ∀ kv ∈ d, (List.Sorted strLeP kv.2 ∧ kv.2.Nodup) ∧ kv.2 ≠ []

theorem bucketInsert_good {d : List (String × List String)} {k : String} {v : List String}
    (hd : goodBuckets d) (hv : (List.Sorted strLeP v ∧ v.Nodup) ∧ v ≠ []) :
    goodBuckets (bucketInsert d k v) := by
  intro kv hkv
  rw [bucketInsert] at hkv
  by_cases hsome : (d.lookup k).isSome = true
  · rw [if_pos hsome] at hkv
    obtain ⟨kv₀, hkv₀, rfl⟩ := List.mem_map.1 hkv
    by_cases hk : kv₀.1 = k
    · rw [if_pos hk]
      refine ⟨⟨sortDedup_sorted _, sortDedup_nodup _⟩, ?_⟩
      apply sortDedup_ne_nil
      intro hc
      exact hv.2 (List.append_eq_nil.mp hc).2
    · rw [if_neg hk]
      exact hd kv₀ hkv₀
  · rw [if_neg hsome] at hkv
    rcases List.mem_append.1 hkv with h | h
    · exact hd kv h
    · rw [List.mem_singleton.mp h]
      exact hv

theorem updateEntry_good {c : DependencyCollection} {dep : Dep}
    (hc : goodBuckets c.dict_deps) (hdep : canonicalDep dep) :
    goodBuckets (updateEntry c dep).dict_deps := by
  cases dep with
  | str s => exact hc
  | dict bs =>
    have haux : ∀ (bs' : List (String × List String)) (d : List (String × List String)),
        goodBuckets d →
        (∀ kv ∈ bs', (List.Sorted strLeP kv.2 ∧ kv.2.Nodup) ∧ kv.2 ≠ []) →
        goodBuckets (bs'.foldl (fun d kv => bucketInsert d kv.1 kv.2) d) := by
      intro bs'
      induction bs' with
      | nil => intro d hd _; exact hd
      | cons kv rest ih =>
        intro d hd hall
        rw [List.foldl_cons]
        exact ih _ (bucketInsert_good hd (hall kv (List.mem_cons_self _ _)))
          fun x hx => hall x (List.mem_cons_of_mem _ hx)
    exact haux bs c.dict_deps hc hdep

theorem update_good {l : List Dep} (hl : ∀ d ∈ l, canonicalDep d) :
    ∀ c : DependencyCollection, goodBuckets c.dict_deps →
      goodBuckets (update c l).dict_deps := by
  induction l with
  | nil => intro c hc; exact hc
  | cons d rest ih =>
    intro c hc
    rw [update, List.foldl_cons,
      show List.foldl updateEntry (updateEntry c d) rest = update (updateEntry c d) rest
        from rfl]
    exact ih (fun x hx => hl x (List.mem_cons_of_mem _ hx)) _
      (updateEntry_good hc (hl d (List.mem_cons_self _ _)))

theorem reachableCanonical_good {c : DependencyCollection} (h : ReachableCanonical c) :
    goodBuckets c.dict_deps := by
  induction h with
  | init => intro kv hkv; exact absurd hkv (List.not_mem_nil _)
  | step c l hr hl ih => exact update_good hl c ih

/-- C2 (amended): for accumulator states reachable by merging canonically
shaped lists — the only lists the generator merges, since they are `dedupe`
outputs — the canonical output is the sorted plain strings followed by at most
one trailing bucket-map entry whose member lists are sorted ascending and
deduplicated; the trailing entry is present exactly when the bucket map has a
key, and since canonical merging never creates an empty bucket, a state whose
buckets are all empty has no bucket keys at all and hence no trailing entry.
For arbitrary merges the claim fails: a bucket list merged once is stored as
given, and a bucket key with an empty member list still produces the trailing
entry (see the counterexample). -/
theorem deps_list_spec (c : DependencyCollection) (h : ReachableCanonical c) :
    deps_list c = (finsetSorted c.str_deps).map Dep.str ++
      (if c.dict_deps.isEmpty then [] else [Dep.dict c.dict_deps]) ∧
    List.Sorted strLeP (finsetSorted c.str_deps) ∧
    (∀ kv ∈ c.dict_deps, (List.Sorted strLeP kv.2 ∧ kv.2.Nodup) ∧ kv.2 ≠ []) ∧
    ((∀ kv ∈ c.dict_deps, kv.2 = []) →
      deps_list c = (finsetSorted c.str_deps).map Dep.str) := by
  have hgood := reachableCanonical_good h
  refine ⟨?_, finsetSorted_sorted _, hgood, ?_⟩
  · rw [deps_list]
    by_cases he : c.dict_deps.isEmpty
    · rw [if_pos he, if_pos he, List.append_nil]
    · rw [if_neg he, if_neg he]
  · intro hall
    have hnil : c.dict_deps = [] := by
      cases hd : c.dict_deps with
      | nil => rfl
      | cons kv rest =>
        have h1 := hall kv (by rw [hd]; exact List.mem_cons_self _ _)
        have h2 := hgood kv (by rw [hd]; exact List.mem_cons_self _ _)
        exact absurd h1 h2.2
    rw [deps_list, if_pos (by rw [hnil]; rfl)]

theorem deps_list_spec_witness :
    deps_list (update ⟨∅, []⟩ [Dep.str "b", Dep.dict [("pip", ["x"])]]) =
      [Dep.str "b", Dep.dict [("pip", ["x"])]] := by
  have hcanon : ∀ d ∈ [Dep.str "b", Dep.dict [("pip", ["x"])]], canonicalDep d := by
    intro d hd
    rcases List.mem_cons.mp hd with rfl | hd
    · trivial
    · rcases List.mem_cons.mp hd with rfl | hd
      · intro kv hkv
        rw [List.mem_singleton.mp hkv]
        exact ⟨⟨List.sorted_singleton _, List.nodup_singleton _⟩, by simp⟩
      · exact absurd hd (List.not_mem_nil _)
  have h := (deps_list_spec _ (ReachableCanonical.step _ _ ReachableCanonical.init hcanon)).1
  rw [h]
  decide

/-- C2 counterexample: one merge of `[{"pip": []}]` reaches a state whose
buckets are all empty, yet `deps_list` still emits the trailing bucket entry,
because the guard tests emptiness of the bucket map, not of its member lists. -/
theorem deps_list_counterexample :
    Reachable (update ⟨∅, []⟩ [Dep.dict [("pip", [])]]) ∧
    (∀ kv ∈ (update ⟨∅, []⟩ [Dep.dict [("pip", [])]]).dict_deps,
      kv.2 = ([] : List String)) ∧
    deps_list (update ⟨∅, []⟩ [Dep.dict [("pip", [])]]) = [Dep.dict [("pip", [])]] :=
  ⟨Reachable.step _ _ Reachable.init, by decide, by decide⟩
